import Mathlib

/-!
Verification of the streaming event protocol, client-side state
reconciliation, and ride-risk monitoring state machine of the She-Oracle
repository.

Each definition is a shallow embedding of one function of the source:

* Event Frame Codec and Stream Client — `frontend/src/utils/api.js`
  (`createAgentStream`): byte chunks are modelled as `List Char` (the
  `TextDecoder` with `stream: true` reassembles split code points, so the
  character level is the faithful granularity), the JSON parser as an
  abstract pure function `List Char → Option α`.
* Plan Reconciliation Reducer — `frontend/src/hooks/useAgentStream.js`
  (`useAgentStream.onEvent`): React `set*` callbacks become explicit
  record updates on `StreamState`.
* Stream Relay — `backend/routes/agent.js` (`router.post("/stream")`).
* Progress derivation — `frontend/src/components/AgentStream.jsx`
  (`AGENT_STEPS`, `ProgressBar`).
* Risk Monitoring State Machine — `frontend/src/pages/CabSafetyPage.jsx`
  (`handleAssess`, `handleReassess`, `handleEndRide`, `handleStartNew`,
  `closureSummary`).
-/

namespace SheOracle

/-! ## Event Frame Codec (createAgentStream read loop, api.js lines 124-150) -/

/-- JavaScript `s.split("\n")` on character lists: the list of segments
separated by newline characters.  Always non-empty, mirroring that JS
`split` never returns an empty array. -/
def splitNl : List Char → List (List Char)
  | [] => [[]]
  | c :: cs =>
    if c = '\n' then [] :: splitNl cs
    else
      match splitNl cs with
      | [] => [[c]]
      | l :: ls => (c :: l) :: ls

/-- The recognized line marker `"data: "` (api.js line 137). -/
def dataTag : List Char := "data: ".toList

/-- JavaScript `line.startsWith("data: ")`. -/
def hasDataTag (line : List Char) : Bool :=
  line.take dataTag.length = dataTag

/-- Decode one complete line (api.js lines 137-147): lines without the
`"data: "` marker are ignored, the rest of the line is handed to the JSON
parser, and parse failures are silently dropped (`catch` ignores them). -/
def decodeLine {α : Type} (parse : List Char → Option α) (line : List Char) :
    Option α :=
  if hasDataTag line then parse (line.drop dataTag.length) else none

/-- One iteration of the read loop (api.js lines 131-149): append the chunk
to the buffer, split on newlines, keep the trailing incomplete fragment
(`buffer = lines.pop()`) and decode every complete line in order.  The
state is `(buffer, decoded events so far)`. -/
def feedChunk {α : Type} (parse : List Char → Option α)
    (st : List Char × List α) (chunk : List Char) : List Char × List α :=
  let segs := splitNl (st.1 ++ chunk)
  (segs.getLastD [], st.2 ++ segs.dropLast.filterMap (decodeLine parse))

/-- Decoded event sequence produced by feeding the chunks through the codec
starting from an empty buffer. -/
def decodeChunks {α : Type} (parse : List Char → Option α)
    (chunks : List (List Char)) : List α :=
  (chunks.foldl (feedChunk parse) ([], [])).2

/-! ## AgentEvent data model (spec section 3; tags as used by the source) -/

/-- Client-derived subtask status (`useAgentStream.js` lines 49-60). -/
inductive SubStatus where
  | pending
  | active
  | complete
  | failed
deriving DecidableEq, Repr

structure SubTask where
  id : Nat
  description : String
  agent_type : String
  status : SubStatus
deriving DecidableEq, Repr

structure Artifact where
  id : String
  type : String
  title : String
  domain : String
  content : String
  format : String
  created_at : Nat
  metadata : List (String × String)
deriving DecidableEq, Repr

/-- Intent profile carried by an `intent_analyzed` event. -/
structure Intent where
  plan_type : String
  urgency : String
  sub_intents : List String
deriving DecidableEq, Repr

/-- Final structured plan.  Only the fields the reducer inspects are
modelled with structure (`artifacts`); the presentation-only fields are
kept as opaque text/lists. -/
structure Plan where
  goal : String
  domain : String
  executive_summary : String
  subgoals : List String
  immediate_actions : List String
  artifacts : List Artifact
deriving DecidableEq, Repr

/-- The tagged event union of the stream protocol.  `other` stands for any
unrecognized tag, which the reducer handles in its final else branch. -/
inductive AgentEvent where
  | session (sessionId : String)
  | thinking (content : String)
  | acting (tool : String) (content : String)
  | toolResult (tool : String) (data : List (String × String))
  | intentAnalyzed (intent : Intent)
  | planDecomposed (subtasks : List SubTask)
  | subtaskStart (subtaskId : Nat)
  | subtaskComplete (subtaskId : Nat)
  | artifactReady (artifact : Artifact)
  | critic (content : String) (feasibility riskCoverage timelineRealism : Int)
      (passed : Bool)
  | result (plan : Plan)
  | error (content : String)
  | done
  | other (tag : String) (content : String)
deriving DecidableEq, Repr

/-- The `type` string of an event as it appears on the wire. -/
def eventType : AgentEvent → String
  | .session _ => "session"
  | .thinking _ => "thinking"
  | .acting _ _ => "acting"
  | .toolResult _ _ => "tool_result"
  | .intentAnalyzed _ => "intent_analyzed"
  | .planDecomposed _ => "plan_decomposed"
  | .subtaskStart _ => "subtask_start"
  | .subtaskComplete _ => "subtask_complete"
  | .artifactReady _ => "artifact_ready"
  | .critic _ _ _ _ _ => "critic"
  | .result _ => "result"
  | .error _ => "error"
  | .done => "done"
  | .other tag _ => tag

/-! ## Plan Reconciliation Reducer (useAgentStream.js lines 33-66) -/

/-- The five pieces of UI state plus the raw event log, error and
streaming flag held by `useAgentStream`.  The synthetic render key
(`id: Date.now() + Math.random()`) attached to each logged event is a
clock value with no protocol meaning and is elided. -/
structure StreamState where
  events : List AgentEvent
  plan : Option Plan
  intentProfile : Option Intent
  subtasks : List SubTask
  artifacts : List Artifact
  criticResult : Option AgentEvent
  error : Option String
  isStreaming : Bool
deriving DecidableEq, Repr

/-- Initial reducer state (useAgentStream.js lines 19-26). -/
def initialStreamState : StreamState :=
  { events := [], plan := none, intentProfile := none, subtasks := [],
    artifacts := [], criticResult := none, error := none, isStreaming := true }

/-- The `onEvent` fold of `useAgentStream` (lines 33-66), one branch per
recognized tag, in source order. -/
def onEvent (st : StreamState) (e : AgentEvent) : StreamState :=
  match e with
  | .result p =>
      { st with plan := some p,
                artifacts :=
                  if p.artifacts.length > 0 then p.artifacts else st.artifacts }
  | .critic _ _ _ _ _ =>
      { st with criticResult := some e, events := st.events ++ [e] }
  | .intentAnalyzed i =>
      { st with intentProfile := some i, events := st.events ++ [e] }
  | .planDecomposed sts =>
      { st with subtasks := sts, events := st.events ++ [e] }
  | .subtaskStart sid =>
      { st with subtasks := st.subtasks.map fun t =>
          if t.id = sid then { t with status := .active } else t }
  | .subtaskComplete sid =>
      { st with subtasks := st.subtasks.map fun t =>
          if t.id = sid then { t with status := .complete } else t }
  | .artifactReady a =>
      { st with artifacts := st.artifacts ++ [a],
                events := st.events ++ [e] }
  | _ => { st with events := st.events ++ [e] }

/-! ## Stream Client callback behaviour (api.js lines 109-160) -/

/-- One observable callback invocation of the stream client. -/
inductive CB where
  | ev (e : AgentEvent)
  | doneCb
  | errCb (msg : String)
deriving DecidableEq, Repr

/-- Per-event dispatch of the read loop (api.js lines 140-144): a
`done`-typed event invokes `onDone`, anything else goes to `onEvent`.
The loop does not stop at a `done` event. -/
def dispatchEvent : AgentEvent → CB
  | .done => .doneCb
  | e => .ev e

/-- Callback trace of the read loop on a decoded event sequence: per-event
dispatch in decode order, followed by the unconditional `onDone` after the
reader reports end of stream (api.js line 151). -/
def dispatchTrace (events : List AgentEvent) : List CB :=
  events.map dispatchEvent ++ [CB.doneCb]

/-- Full observable callback trace of `createAgentStream` once the
response arrives (api.js lines 119-151): a non-OK response status produces
a single error callback and no reading; an OK response is drained through
the codec and dispatched. -/
def clientTrace (parse : List Char → Option AgentEvent) (ok : Bool)
    (chunks : List (List Char)) : List CB :=
  if ok then dispatchTrace (decodeChunks parse chunks)
  else [CB.errCb "Stream connection failed."]

/-- Synchronous behaviour of `createAgentStream` (api.js lines 109-118):
the function unconditionally constructs an `AbortController` and issues
the `fetch` with the given payload; it inspects no field of the payload
before doing so and throws no synchronous validation error. -/
structure StreamStart where
  opensConnection : Bool
  requestGoal : String
  syncError : Option String
deriving DecidableEq, Repr

def createAgentStream (goal _domain _sessionId : String) : StreamStart :=
  { opensConnection := true, requestGoal := goal, syncError := none }

/-! ## Stream Relay (backend/routes/agent.js lines 40-100) -/

/-- JavaScript `String.prototype.trim`: strip leading and trailing
whitespace. -/
def jsTrim (s : String) : String :=
  ⟨((s.data.dropWhile fun c => c.isWhitespace).reverse.dropWhile
      fun c => c.isWhitespace).reverse⟩

/-- JavaScript `!goal || !goal.trim()` on the request body's `goal` field
(`none` models an absent field, `""` and all-whitespace are blank). -/
def goalBlank : Option String → Bool
  | none => true
  | some s => s = "" || jsTrim s = ""

/-- One unit written to the downstream response: either a verbatim byte
chunk piped from upstream, or the relay's own synthesized error frame
`data: {"type":"error","content":...}` (agent.js lines 68, 97). -/
inductive RelayFrame where
  | bytes (chunk : String)
  | errorEvent (content : String)
deriving DecidableEq, Repr

/-- Observable result of the `/stream` route: an HTTP client error sent
before headers are committed, or a stream of writes followed by
`res.end()`. -/
inductive RelayResult where
  | clientError (status : Nat) (msg : String)
  | stream (frames : List RelayFrame) (closed : Bool)
deriving DecidableEq, Repr

/-- Outcome of the upstream `fetch` (agent.js line 55): the call itself
rejects, or a response arrives with an `ok` flag, error text and body
chunks. -/
inductive Upstream where
  | fetchFailed (msg : String)
  | responded (ok : Bool) (errText : String) (body : List String)
deriving DecidableEq, Repr

/-- The upstream `fetch` at agent.js line 55 is reached exactly when the
`400` return at line 44 was not taken. -/
def relayOpensUpstream (goal : Option String) : Bool :=
  !(goalBlank goal)

/-- The `/stream` route handler (agent.js lines 40-100): validate, then
either relay the upstream body verbatim or synthesize a single error frame
and close.  The outer catch (line 97) writes a fixed description for a
failed fetch. -/
def streamRoute (goal : Option String) (up : Upstream) : RelayResult :=
  if goalBlank goal then .clientError 400 "Goal is required."
  else
    match up with
    | .fetchFailed _ =>
        .stream [.errorEvent
          "Orchestrator unreachable. Is the Python server running on port 8000?"] true
    | .responded false errText _ => .stream [.errorEvent errText] true
    | .responded true _ body => .stream (body.map .bytes) true

/-! ## Progress derivation (AgentStream.jsx lines 70-110) -/

structure AgentStep where
  key : String
  label : String
deriving DecidableEq, Repr

/-- Ordered canonical phase sequence (AgentStream.jsx lines 70-80). -/
def AGENT_STEPS : List AgentStep :=
  [ ⟨"session", "Initialising session"⟩,
    ⟨"intent_analyzed", "Analyzing intent"⟩,
    ⟨"plan_decomposed", "Building execution plan"⟩,
    ⟨"thinking", "Reasoning through the problem"⟩,
    ⟨"acting", "Running specialist tools"⟩,
    ⟨"tool_result", "Processing intelligence"⟩,
    ⟨"artifact_ready", "Generating documents"⟩,
    ⟨"critic", "Quality checking plan"⟩,
    ⟨"result", "Plan ready"⟩ ]

/-- The indexed `forEach` of AgentStream.jsx lines 104-106: walk the steps
with their index, remembering the index of every step whose key has been
seen. -/
def stepIndexAux (types : List String) : Nat → Nat → List AgentStep → Nat
  | _, acc, [] => acc
  | i, acc, s :: rest =>
      stepIndexAux types (i + 1) (if s.key ∈ types then i else acc) rest

/-- `currentStep` of `ProgressBar` (AgentStream.jsx lines 102-106), with
`types` the set of `type` strings of the logged events. -/
def stepIndex (types : List String) : Nat :=
  stepIndexAux types 0 0 AGENT_STEPS

/-- `Math.round((currentStep / total) * 100)` (AgentStream.jsx line 108);
both the division and the product are exact in double precision here, and
JS `Math.round` is round-half-up, which is Mathlib's `round` on `ℚ`. -/
def progressPct (events : List AgentEvent) : ℤ :=
  round (((stepIndex (events.map eventType) : ℚ) /
    ((AGENT_STEPS.length : ℚ) - 1)) * 100)

/-- What the progress bar reports. -/
inductive Progress where
  | complete
  | running (step : Nat) (pct : ℤ)
deriving DecidableEq, Repr

/-- `ProgressBar` (AgentStream.jsx lines 82-110): `planReady` (wired as
`!!plan` by every caller) short-circuits to the completed bar; otherwise
the bar shows the derived step index and percentage. -/
def progressReport (events : List AgentEvent) (planReady : Bool) : Progress :=
  if planReady then .complete
  else .running (stepIndex (events.map eventType)) (progressPct events)

/-! ## Risk Monitoring State Machine (CabSafetyPage.jsx) -/

/-- Ride form fields (CabSafetyPage.jsx lines 267-270). -/
structure RideForm where
  driver_name : String
  vehicle_plate : String
  pickup : String
  destination : String
  time_of_day : String
  area_type : String
deriving DecidableEq, Repr

def initialForm : RideForm :=
  { driver_name := "", vehicle_plate := "", pickup := "", destination := "",
    time_of_day := "day", area_type := "urban" }

/-- One recorded risk measurement: the `{score, level}` pair pushed onto
`historyRef` (lines 301, 320), also standing for the `data.risk` fields the
state machine reads from a scoring response. -/
structure Snapshot where
  score : Int
  level : String
deriving DecidableEq, Repr

inductive RiskMode where
  | assessing
  | monitoring
  | closed
deriving DecidableEq, Repr

/-- The state owned by `CabSafetyPage`: form, selected flags, mode,
displayed result, error, history and reassessment counter.  The transient
`isLoading`/`isReassessing` spinners are set and cleared inside one handler
call and are elided. -/
structure RiskState where
  form : RideForm
  flags : List String
  mode : RiskMode
  result : Option Snapshot
  error : Option String
  history : List Snapshot
  reassessCount : Nat
deriving DecidableEq, Repr

def initialRiskState : RiskState :=
  { form := initialForm, flags := [], mode := .assessing, result := none,
    error := none, history := [], reassessCount := 0 }

/-- One user-driven operation together with the outcome of its scoring
call, if any. -/
inductive RiskOp where
  | assessOk (d : Snapshot)
  | assessFail (msg : String)
  | reassessOk (updatedFlags : List String) (updatedArea : String) (d : Snapshot)
  | reassessFail (updatedFlags : List String) (updatedArea : String)
  | endRide
  | startNew
deriving DecidableEq, Repr

/-- Step function of the risk state machine.  Guards reflect which
handlers are reachable from the rendered UI: the assess form exists only
while `mode !== "closed"` (line 445), the de-escalation panel only under
`mode === "monitoring"` inside the `result && ...` block (lines 591, 688),
and the end-ride buttons only in monitoring mode (lines 73, 735).

* `assessOk`/`assessFail` — `handleAssess` (lines 290-307): reset history
  and counter, then store the result and enter monitoring on success, or
  record the error (leaving mode unchanged) on failure.
* `reassessOk`/`reassessFail` — `handleReassess` (lines 311-326): on
  success commit the mutated form/flags, replace the displayed result,
  append a history entry and bump the counter; on failure change nothing.
* `endRide` — `handleEndRide` (lines 330-332).
* `startNew` — `handleStartNew` (lines 334-342): reset to defaults. -/
def riskStep (st : RiskState) (op : RiskOp) : RiskState :=
  match op with
  | .assessOk d =>
      if st.mode = .closed then st
      else
        { st with error := none, result := some d, mode := .monitoring,
                  history := [⟨d.score, d.level⟩], reassessCount := 0 }
  | .assessFail msg =>
      if st.mode = .closed then st
      else
        { st with error := some msg, result := none,
                  history := [], reassessCount := 0 }
  | .reassessOk uf ua d =>
      if st.mode = .monitoring ∧ st.result.isSome then
        { st with result := some d,
                  form := { st.form with area_type := ua },
                  flags := uf,
                  reassessCount := st.reassessCount + 1,
                  history := st.history ++ [⟨d.score, d.level⟩] }
      else st
  | .reassessFail _ _ => st
  | .endRide =>
      if st.mode = .monitoring then { st with mode := .closed } else st
  | .startNew => initialRiskState

/-- Run a sequence of operations from the initial state. -/
def riskRun (ops : List RiskOp) : RiskState :=
  ops.foldl riskStep initialRiskState

/-- Close-session summary record (CabSafetyPage.jsx lines 360-368). -/
structure RideSummary where
  initialScore : Int
  initialLevel : String
  peakScore : Int
  peakLevel : String
  finalScore : Int
  finalLevel : String
  reassessCount : Nat
deriving DecidableEq, Repr

/-- JavaScript `history.reduce((a, b) => a.score >= b.score ? a : b)` on
`history = h :: t` (line 364): the accumulator `a` is kept whenever
`a.score >= b.score`, so a later entry replaces the best-so-far only when
its score is strictly greater. -/
def peakEntry (h : Snapshot) (t : List Snapshot) : Snapshot :=
  t.foldl (fun a b => if a.score ≥ b.score then a else b) h

/-- Modelled from the spec: the peak fold as the spec sentence states it,
with `candidate.score >= best.score` as the replacement condition (most
recent occurrence wins among ties).  Kept for comparison with the
source-derived `peakEntry`. -/
def peakEntrySpec (h : Snapshot) (t : List Snapshot) : Snapshot :=
  t.foldl (fun best cand => if cand.score ≥ best.score then cand else best) h

/-- `closureSummary` (CabSafetyPage.jsx lines 360-368), `none` when the
history is empty (the source guards with `history.length > 0`). -/
def closureSummary (history : List Snapshot) (reassessCount : Nat) :
    Option RideSummary :=
  match history with
  | [] => none
  | h :: t =>
      some
        { initialScore := h.score
          initialLevel := h.level
          peakScore := t.foldl (fun m b => max m b.score) h.score
          peakLevel := (peakEntry h t).level
          finalScore := ((h :: t).getLastD h).score
          finalLevel := ((h :: t).getLastD h).level
          reassessCount := reassessCount }

/-! ## Helper lemmas about the peak fold -/

theorem foldl_pick_mem (t : List Snapshot) (h : Snapshot) :
    t.foldl (fun a b => if a.score ≥ b.score then a else b) h ∈ h :: t := by
  induction t generalizing h with
  | nil => simp
  | cons b t ih =>
      simp only [List.foldl_cons]
      rcases List.mem_cons.mp (ih (if h.score ≥ b.score then h else b)) with hm | hm
      · rw [hm]
        split_ifs with hs
        · exact List.mem_cons_self _ _
        · exact List.mem_cons_of_mem _ (List.mem_cons_self _ _)
      · exact List.mem_cons_of_mem _ (List.mem_cons_of_mem _ hm)

theorem foldl_pick_score_le (t : List Snapshot) (h : Snapshot) :
    ∀ x ∈ h :: t,
      x.score ≤ (t.foldl (fun a b => if a.score ≥ b.score then a else b) h).score := by
  induction t generalizing h with
  | nil => intro x hx; simp at hx; simp [hx]
  | cons b t ih =>
      intro x hx
      simp only [List.foldl_cons]
      have hle : x.score ≤ (if h.score ≥ b.score then h else b).score ∨
          x ∈ (if h.score ≥ b.score then h else b) :: t := by
        rcases List.mem_cons.mp hx with hx | hx
        · subst hx
          split_ifs with hs
          · right; exact List.mem_cons_self _ _
          · left; omega
        · rcases List.mem_cons.mp hx with hx | hx
          · subst hx
            split_ifs with hs
            · left; omega
            · right; exact List.mem_cons_self _ _
          · right; exact List.mem_cons_of_mem _ hx
      rcases hle with hle | hmem
      · exact le_trans hle (ih _ _ (List.mem_cons_self _ _))
      · exact ih _ _ hmem

theorem foldl_pick_eq_strict (t : List Snapshot) (h : Snapshot) :
    t.foldl (fun a b => if a.score ≥ b.score then a else b) h
      = t.foldl (fun a b => if b.score > a.score then b else a) h := by
  induction t generalizing h with
  | nil => rfl
  | cons b t ih =>
      simp only [List.foldl_cons]
      have : (if h.score ≥ b.score then h else b)
          = (if b.score > h.score then b else h) := by
        split_ifs <;> first | rfl | omega
      rw [this, ih]

theorem foldl_max_eq_pick_score (t : List Snapshot) (h : Snapshot) :
    t.foldl (fun m b => max m b.score) h.score
      = (t.foldl (fun a b => if a.score ≥ b.score then a else b) h).score := by
  induction t generalizing h with
  | nil => rfl
  | cons b t ih =>
      simp only [List.foldl_cons]
      have : max h.score b.score = (if h.score ≥ b.score then h else b).score := by
        split_ifs with hs
        · exact max_eq_left hs
        · exact max_eq_right (by omega)
      rw [this, ih]

/-- C1: the close-session summary takes `peak` by maximum score, but ties
are broken by the EARLIEST occurrence, not the most recent: the reduce at
CabSafetyPage.jsx line 364 keeps the accumulator whenever
`a.score >= b.score`.  On the two-entry history `[(50, LOW), (50, HIGH)]`
the code reports peak level `LOW`, while the claimed fold (replace on
`candidate.score >= best.score`) would report `HIGH`. -/
theorem closure_peak_tiebreak_counterexample :
    (closureSummary [⟨50, "LOW"⟩, ⟨50, "HIGH"⟩] 1).map (·.peakLevel)
      = some "LOW"
    ∧ (peakEntrySpec ⟨50, "LOW"⟩ [⟨50, "HIGH"⟩]).level = "HIGH"
    ∧ ("LOW" : String) ≠ "HIGH" := by
  refine ⟨rfl, rfl, ?_⟩
  decide

/-- C1 (amended): for every non-empty risk history, the summary's peak
entry is an entry of maximal score, with ties broken by the EARLIEST
occurrence — equivalently a left-to-right fold in which the candidate
replaces the best-so-far only when `candidate.score > best.score` strictly;
`peakLevel` and `peakScore` are the level and score of that entry. -/
theorem closure_peak_amended (h : Snapshot) (t : List Snapshot) (rc : Nat) :
    ∃ s, closureSummary (h :: t) rc = some s
      ∧ s.peakLevel = (peakEntry h t).level
      ∧ s.peakScore = (peakEntry h t).score
      ∧ peakEntry h t ∈ h :: t
      ∧ (∀ x ∈ h :: t, x.score ≤ (peakEntry h t).score)
      ∧ peakEntry h t = t.foldl (fun a b => if b.score > a.score then b else a) h := by
  refine ⟨_, rfl, rfl, ?_, ?_, ?_, ?_⟩
  · exact foldl_max_eq_pick_score t h
  · exact foldl_pick_mem t h
  · exact foldl_pick_score_le t h
  · exact foldl_pick_eq_strict t h

/-- Witness for the amended C1 at the spec's Scenario C history. -/
theorem closure_peak_amended_witness :
    ∃ s, closureSummary [⟨40, "MODERATE"⟩, ⟨70, "HIGH"⟩, ⟨20, "LOW"⟩] 2 = some s
      ∧ s.peakLevel = (peakEntry ⟨40, "MODERATE"⟩ [⟨70, "HIGH"⟩, ⟨20, "LOW"⟩]).level
      ∧ s.peakScore = (peakEntry ⟨40, "MODERATE"⟩ [⟨70, "HIGH"⟩, ⟨20, "LOW"⟩]).score
      ∧ peakEntry ⟨40, "MODERATE"⟩ [⟨70, "HIGH"⟩, ⟨20, "LOW"⟩]
          ∈ [⟨40, "MODERATE"⟩, ⟨70, "HIGH"⟩, ⟨20, "LOW"⟩]
      ∧ (∀ x ∈ [(⟨40, "MODERATE"⟩ : Snapshot), ⟨70, "HIGH"⟩, ⟨20, "LOW"⟩],
          x.score ≤ (peakEntry ⟨40, "MODERATE"⟩ [⟨70, "HIGH"⟩, ⟨20, "LOW"⟩]).score)
      ∧ peakEntry ⟨40, "MODERATE"⟩ [⟨70, "HIGH"⟩, ⟨20, "LOW"⟩]
          = [(⟨70, "HIGH"⟩ : Snapshot), ⟨20, "LOW"⟩].foldl
              (fun a b => if b.score > a.score then b else a) ⟨40, "MODERATE"⟩ :=
  closure_peak_amended ⟨40, "MODERATE"⟩ [⟨70, "HIGH"⟩, ⟨20, "LOW"⟩] 2

/-- C7: in monitoring mode a failed reassessment changes nothing at all:
the displayed result, committed form and flags, history, counter and error
field are all exactly their pre-call values (`handleReassess`'s catch block
is empty, CabSafetyPage.jsx lines 321-323). -/
theorem reassess_failure_atomic (st : RiskState) (uf : List String)
    (ua : String) (hmode : st.mode = .monitoring) :
    riskStep st (.reassessFail uf ua) = st := rfl

/-- Witness for C7 at a concrete monitoring-mode state. -/
theorem reassess_failure_atomic_witness :
    ({ initialRiskState with mode := .monitoring } : RiskState).mode = .monitoring
    ∧ riskStep { initialRiskState with mode := .monitoring }
        (.reassessFail ["doors_locked"] "urban")
      = { initialRiskState with mode := .monitoring } :=
  ⟨rfl, reassess_failure_atomic _ ["doors_locked"] "urban" rfl⟩

/-- C4: the claim is false — `createAgentStream` performs no local
validation.  For the blank goal `""` it still opens the connection
(`fetch` at api.js line 113 is unconditional) and raises no synchronous
validation error. -/
theorem client_blank_goal_counterexample :
    (createAgentStream "" "career" "s1").opensConnection = true
    ∧ (createAgentStream "" "career" "s1").syncError = none :=
  ⟨rfl, rfl⟩

/-- C4 (amended): the stream client performs no local validation at all:
for every payload, blank or not, it opens the network connection and
reports no synchronous validation error; a blank goal is instead rejected
by the relay with a non-OK status, which the client surfaces
asynchronously as the single error callback "Stream connection failed.". -/
theorem client_no_local_validation (goal domain sessionId : String)
    (parse : List Char → Option AgentEvent) (chunks : List (List Char)) :
    (createAgentStream goal domain sessionId).opensConnection = true
    ∧ (createAgentStream goal domain sessionId).syncError = none
    ∧ clientTrace parse false chunks = [CB.errCb "Stream connection failed."] :=
  ⟨rfl, rfl, rfl⟩

/-- C8: the relay rejects a missing or blank goal with a 400 client error
before the upstream `fetch` is reached, and when the upstream call fails
before producing bytes (fetch rejection or non-OK status) it writes
exactly one synthetic error-typed frame and then closes the stream
normally. -/
theorem relay_validation_and_error_frame (goal : Option String) (up : Upstream) :
    (goalBlank goal = true →
      streamRoute goal up = .clientError 400 "Goal is required."
      ∧ relayOpensUpstream goal = false)
    ∧ (goalBlank goal = false →
      (∀ msg, up = .fetchFailed msg →
        streamRoute goal up
          = .stream [.errorEvent
              "Orchestrator unreachable. Is the Python server running on port 8000?"] true)
      ∧ (∀ errText body, up = .responded false errText body →
        streamRoute goal up = .stream [.errorEvent errText] true)) := by
  constructor
  · intro hb
    constructor
    · simp [streamRoute, hb]
    · simp [relayOpensUpstream, hb]
  · intro hb
    constructor
    · intro msg hup
      subst hup
      simp [streamRoute, hb]
    · intro errText body hup
      subst hup
      simp [streamRoute, hb]

/-- Witness for C8: a whitespace-only goal is rejected with no upstream
call, and a non-blank goal whose upstream responds non-OK yields exactly
the one error frame. -/
theorem relay_validation_and_error_frame_witness :
    goalBlank (some " ") = true
    ∧ streamRoute (some " ") (.fetchFailed "x")
        = .clientError 400 "Goal is required."
    ∧ relayOpensUpstream (some " ") = false
    ∧ goalBlank (some "find help") = false
    ∧ streamRoute (some "find help") (.responded false "boom" [])
        = .stream [.errorEvent "boom"] true := by
  have h1 : goalBlank (some " ") = true := by decide
  have h2 : goalBlank (some "find help") = false := by decide
  have w1 := (relay_validation_and_error_frame (some " ") (.fetchFailed "x")).1 h1
  have w2 := ((relay_validation_and_error_frame (some "find help")
      (.responded false "boom" [])).2 h2).2 "boom" [] rfl
  exact ⟨h1, w1.1, w1.2, h2, w2⟩

/-- C5: the claim is false — on the decoded sequence `[done, session]` the
read loop invokes `onDone` at the done event, still delivers the later
event to `onEvent`, and invokes `onDone` a second time when the transport
closes (api.js lines 140-151: no break after the done frame, and an
unconditional `onDone` after the loop). -/
theorem done_twice_counterexample :
    dispatchTrace [.done, .session "abc"]
      = [CB.doneCb, CB.ev (.session "abc"), CB.doneCb]
    ∧ (dispatchTrace [.done, .session "abc"]).count CB.doneCb = 2
    ∧ CB.ev (.session "abc") ∈ dispatchTrace [.done, .session "abc"] := by
  refine ⟨rfl, ?_, ?_⟩ <;> decide

theorem dispatch_count_done (evs : List AgentEvent) :
    (evs.map dispatchEvent).count CB.doneCb = evs.count AgentEvent.done := by
  induction evs with
  | nil => rfl
  | cons e t ih => cases e <;> simp [dispatchEvent, List.count_cons, ih]

/-- C5 (amended): the stream client invokes `onDone` at every done-typed
event AND once more when the transport closes (so a stream containing one
done frame sees `onDone` twice), and events decoded after a done frame are
still delivered to `onEvent`. -/
theorem done_dispatch_amended (evs : List AgentEvent) :
    (dispatchTrace evs).count CB.doneCb = evs.count AgentEvent.done + 1
    ∧ ∀ e ∈ evs, e ≠ AgentEvent.done → CB.ev e ∈ dispatchTrace evs := by
  constructor
  · simp [dispatchTrace, dispatch_count_done]
  · intro e he hne
    have hde : dispatchEvent e = CB.ev e := by
      cases e <;> simp_all [dispatchEvent]
    exact List.mem_append_left _ (hde ▸ List.mem_map_of_mem dispatchEvent he)

/-- Witness for the amended C5 on a one-event stream. -/
theorem done_dispatch_amended_witness :
    (dispatchTrace [AgentEvent.thinking "x"]).count CB.doneCb
      = [AgentEvent.thinking "x"].count AgentEvent.done + 1
    ∧ CB.ev (AgentEvent.thinking "x") ∈ dispatchTrace [AgentEvent.thinking "x"] :=
  ⟨(done_dispatch_amended [AgentEvent.thinking "x"]).1,
    (done_dispatch_amended [AgentEvent.thinking "x"]).2 _ (by simp) (by simp)⟩

/-- C2: the claim is false — a `subtask_start` arriving after
`subtask_complete` for the same id moves the status back to `active`
(useAgentStream.js lines 49-54 set `active` unconditionally). -/
theorem subtask_regression_counterexample :
    (List.foldl onEvent initialStreamState
        [.planDecomposed [⟨1, "s", "tool", .pending⟩],
          .subtaskComplete 1]).subtasks
      = [⟨1, "s", "tool", .complete⟩]
    ∧ (List.foldl onEvent initialStreamState
        [.planDecomposed [⟨1, "s", "tool", .pending⟩],
          .subtaskComplete 1, .subtaskStart 1]).subtasks
      = [⟨1, "s", "tool", .active⟩]
    ∧ SubStatus.active ≠ SubStatus.complete := by
  refine ⟨rfl, rfl, ?_⟩
  decide

/-- C2 (amended): once a subtask's status is `complete`, every subsequent
event EXCEPT a `subtask_start` carrying the same id and a
`plan_decomposed` (which replaces the whole subtask list) leaves that
subtask's status `complete`. -/
theorem subtask_status_monotone_amended (st : StreamState) (sid : Nat)
    (e : AgentEvent)
    (hdone : ∀ t ∈ st.subtasks, t.id = sid → t.status = .complete)
    (hstart : e ≠ .subtaskStart sid)
    (hplan : ∀ sts, e ≠ .planDecomposed sts) :
    ∀ t ∈ (onEvent st e).subtasks, t.id = sid → t.status = .complete := by
  intro t ht hid
  cases e with
  | planDecomposed sts => exact absurd rfl (hplan sts)
  | subtaskStart sid2 =>
      simp only [onEvent, List.mem_map] at ht
      obtain ⟨u, hu, hut⟩ := ht
      by_cases hcase : u.id = sid2
      · rw [if_pos hcase] at hut
        have : t.id = u.id := by rw [← hut]
        rw [hcase] at this
        have hne : sid2 ≠ sid := fun hcontra => hstart (by rw [hcontra])
        exact absurd (this.symm.trans hid) hne
      · rw [if_neg hcase] at hut
        exact hut ▸ hdone u hu (hut ▸ hid)
  | subtaskComplete sid2 =>
      simp only [onEvent, List.mem_map] at ht
      obtain ⟨u, hu, hut⟩ := ht
      by_cases hcase : u.id = sid2
      · rw [if_pos hcase] at hut
        rw [← hut]
      · rw [if_neg hcase] at hut
        exact hut ▸ hdone u hu (hut ▸ hid)
  | result p => exact hdone t ht hid
  | session s => exact hdone t ht hid
  | thinking c => exact hdone t ht hid
  | acting tool c => exact hdone t ht hid
  | toolResult tool d => exact hdone t ht hid
  | intentAnalyzed i => exact hdone t ht hid
  | artifactReady a => exact hdone t ht hid
  | critic c f r ti pa => exact hdone t ht hid
  | error c => exact hdone t ht hid
  | done => exact hdone t ht hid
  | other tag c => exact hdone t ht hid

/-- Witness for the amended C2: a completed subtask stays complete across
an `artifact_ready` event. -/
theorem subtask_status_monotone_amended_witness :
    (∀ t ∈ ({ initialStreamState with
        subtasks := [⟨1, "s", "tool", .complete⟩] } : StreamState).subtasks,
      t.id = 1 → t.status = .complete)
    ∧ ∀ t ∈ (onEvent { initialStreamState with
        subtasks := [⟨1, "s", "tool", .complete⟩] }
          (.artifactReady ⟨"a1", "t", "T", "d", "c", "md", 0, []⟩)).subtasks,
        t.id = 1 → t.status = .complete := by
  constructor
  · intro t ht _
    simp only [List.mem_singleton] at ht
    rw [ht]
  · exact subtask_status_monotone_amended _ 1 _
      (by intro t ht _; simp only [List.mem_singleton] at ht; rw [ht])
      (by simp) (by simp)

/-- C3: the claim is false — `artifact_ready` appends unconditionally
(useAgentStream.js line 62), so an event whose artifact id is already
present duplicates the entry: after two identical `artifact_ready` events
the list holds two entries for the id. -/
theorem artifact_duplicate_counterexample :
    ((onEvent initialStreamState
        (.artifactReady ⟨"a1", "t", "T", "d", "c", "md", 0, []⟩)).artifacts.filter
        (fun x => x.id = "a1")).length = 1
    ∧ ((onEvent (onEvent initialStreamState
        (.artifactReady ⟨"a1", "t", "T", "d", "c", "md", 0, []⟩))
        (.artifactReady ⟨"a1", "t", "T", "d", "c", "md", 0, []⟩)).artifacts.filter
        (fun x => x.id = "a1")).length = 2 := by
  constructor <;> decide

/-- C3 (amended): folding an `artifact_ready` whose id is already present
DOES add a duplicate entry; it is the subsequent `result` event with a
non-empty `plan.artifacts` that resyncs, replacing the list wholesale so
that the id has exactly as many entries as the plan lists — exactly one
when the plan lists it once. -/
theorem artifact_resync_amended (st : StreamState) (a : Artifact) (p : Plan)
    (hmem : 1 ≤ (st.artifacts.filter (fun x => x.id = a.id)).length)
    (hone : (p.artifacts.filter (fun x => x.id = a.id)).length = 1) :
    2 ≤ ((onEvent st (.artifactReady a)).artifacts.filter
          (fun x => x.id = a.id)).length
    ∧ ((onEvent (onEvent st (.artifactReady a)) (.result p)).artifacts.filter
          (fun x => x.id = a.id)).length = 1 := by
  have hne : p.artifacts.length > 0 := by
    rcases hnil : p.artifacts with _ | ⟨x, xs⟩
    · rw [hnil] at hone
      simp at hone
    · simp
  constructor
  · simp only [onEvent, List.filter_append]
    simp only [List.length_append]
    have : (List.filter (fun x => decide (x.id = a.id)) [a]).length = 1 := by
      simp
    omega
  · simp only [onEvent, if_pos hne]
    exact hone

/-- Witness for the amended C3. -/
theorem artifact_resync_amended_witness :
    (1 ≤ ((({ initialStreamState with
        artifacts := [⟨"a1", "t", "T", "d", "c", "md", 0, []⟩] } : StreamState)).artifacts.filter
        (fun x => x.id = "a1")).length)
    ∧ 2 ≤ ((onEvent { initialStreamState with
        artifacts := [⟨"a1", "t", "T", "d", "c", "md", 0, []⟩] }
          (.artifactReady ⟨"a1", "t", "T", "d", "c", "md", 0, []⟩)).artifacts.filter
          (fun x => x.id = "a1")).length
    ∧ ((onEvent (onEvent { initialStreamState with
        artifacts := [⟨"a1", "t", "T", "d", "c", "md", 0, []⟩] }
          (.artifactReady ⟨"a1", "t", "T", "d", "c", "md", 0, []⟩))
        (.result ⟨"g", "d", "es", [], [],
          [⟨"a1", "t", "T", "d", "c", "md", 0, []⟩]⟩)).artifacts.filter
          (fun x => x.id = "a1")).length = 1 := by
  have h := artifact_resync_amended
    { initialStreamState with
        artifacts := [⟨"a1", "t", "T", "d", "c", "md", 0, []⟩] }
    ⟨"a1", "t", "T", "d", "c", "md", 0, []⟩
    ⟨"g", "d", "es", [], [], [⟨"a1", "t", "T", "d", "c", "md", 0, []⟩]⟩
    (by decide) (by decide)
  exact ⟨by decide, h.1, h.2⟩

/-! ## Chunking invariance of the frame codec (C6) -/

theorem splitNl_ne_nil (s : List Char) : splitNl s ≠ [] := by
  induction s with
  | nil => simp [splitNl]
  | cons c cs ih =>
      simp only [splitNl]
      split_ifs
      · simp
      · rcases hcs : splitNl cs with _ | ⟨l, ls⟩
        · simp
        · simp [hcs]

theorem getLastD_default_irrel {α : Type} (x : α) (xs : List α) (d d₂ : α) :
    (x :: xs).getLastD d = (x :: xs).getLastD d₂ := by
  cases xs with
  | nil => rfl
  | cons y ys => simp only [List.getLastD_cons]

/-- Splitting a concatenation: the segments of `a` except its trailing
fragment, then the segments of `b` with the trailing fragment of `a` glued
onto the first one. -/
theorem splitNl_append (a b : List Char) :
    splitNl (a ++ b)
      = (splitNl a).dropLast
          ++ (splitNl b).modifyHead (fun l => (splitNl a).getLastD [] ++ l) := by
  induction a with
  | nil =>
      obtain ⟨hb, tb, hbeq⟩ := List.exists_cons_of_ne_nil (splitNl_ne_nil b)
      simp [splitNl, hbeq]
  | cons c a ih =>
      by_cases hc : c = '\n'
      · subst hc
        obtain ⟨q, qs, hq⟩ := List.exists_cons_of_ne_nil (splitNl_ne_nil a)
        have lhs : splitNl (('\n' :: a) ++ b) = [] :: splitNl (a ++ b) := by
          simp [splitNl]
        have rhs : splitNl ('\n' :: a) = [] :: splitNl a := by
          simp [splitNl]
        rw [lhs, rhs, ih, hq]
        simp only [List.dropLast_cons₂, List.getLastD_cons, List.cons_append]
      · obtain ⟨q, qs, hq⟩ := List.exists_cons_of_ne_nil (splitNl_ne_nil a)
        have lhs0 : splitNl ((c :: a) ++ b)
            = match splitNl (a ++ b) with
              | [] => [[c]]
              | l :: ls => (c :: l) :: ls := by
          simp [splitNl, hc]
        have rhs0 : splitNl (c :: a)
            = match splitNl a with
              | [] => [[c]]
              | l :: ls => (c :: l) :: ls := by
          simp [splitNl, hc]
        rw [lhs0, rhs0, hq, ih, hq]
        obtain ⟨hb, tb, hbeq⟩ := List.exists_cons_of_ne_nil (splitNl_ne_nil b)
        rw [hbeq]
        cases qs with
        | nil => simp
        | cons r rs =>
            simp only [List.dropLast_cons₂, List.cons_append, List.modifyHead_cons]
            simp only [List.getLastD_cons]

theorem nl_not_mem_splitNl_last (s : List Char) :
    '\n' ∉ (splitNl s).getLastD [] := by
  induction s with
  | nil => simp [splitNl]
  | cons c cs ih =>
      obtain ⟨q, qs, hq⟩ := List.exists_cons_of_ne_nil (splitNl_ne_nil cs)
      by_cases hc : c = '\n'
      · subst hc
        have : splitNl ('\n' :: cs) = [] :: splitNl cs := by simp [splitNl]
        rw [this, hq, List.getLastD_cons, getLastD_default_irrel q qs [] []]
        rw [hq] at ih
        exact ih
      · have : splitNl (c :: cs)
            = match splitNl cs with
              | [] => [[c]]
              | l :: ls => (c :: l) :: ls := by
          simp [splitNl, hc]
        rw [this, hq]
        cases qs with
        | nil =>
            rw [hq] at ih
            simp only [List.getLastD_cons] at ih ⊢
            simp only [List.getLastD_nil] at ih ⊢
            intro hmem
            rcases List.mem_cons.mp hmem with hmem | hmem
            · exact hc hmem.symm
            · exact ih hmem
        | cons r rs =>
            rw [hq] at ih
            simp only [List.getLastD_cons] at ih ⊢
            exact ih

theorem splitNl_eq_single (s : List Char) (h : '\n' ∉ s) : splitNl s = [s] := by
  induction s with
  | nil => simp [splitNl]
  | cons c cs ih =>
      have hc : ¬c = '\n' := fun hcc => h (hcc ▸ List.mem_cons_self c cs)
      have hcs : splitNl cs = [cs] := ih (fun hm => h (List.mem_cons_of_mem c hm))
      simp [splitNl, hc, hcs]

theorem modifyHead_ne_nil {α : Type} (f : α → α) (l : List α) (h : l ≠ []) :
    l.modifyHead f ≠ [] := by
  cases l with
  | nil => exact absurd rfl h
  | cons x xs => simp

theorem getLastD_append_of_ne_nil {α : Type} (l₁ l₂ : List α) (d : α)
    (h : l₂ ≠ []) : (l₁ ++ l₂).getLastD d = l₂.getLastD d := by
  simp [List.getLastD_eq_getLast?, List.getLast?_append_of_ne_nil _ h]

/-- Feeding a concatenation through the codec is the same as feeding its
two halves one after the other. -/
theorem feedChunk_append {α : Type} (parse : List Char → Option α)
    (st : List Char × List α) (a b : List Char) :
    feedChunk parse st (a ++ b) = feedChunk parse (feedChunk parse st a) b := by
  obtain ⟨buf, out⟩ := st
  have hassoc : buf ++ (a ++ b) = (buf ++ a) ++ b := (List.append_assoc buf a b).symm
  have hlast : splitNl ((splitNl (buf ++ a)).getLastD []) = [(splitNl (buf ++ a)).getLastD []] :=
    splitNl_eq_single _ (nl_not_mem_splitNl_last (buf ++ a))
  have hTne : (splitNl b).modifyHead
      (fun l => (splitNl (buf ++ a)).getLastD [] ++ l) ≠ [] :=
    modifyHead_ne_nil _ _ (splitNl_ne_nil b)
  simp only [feedChunk]
  rw [hassoc, splitNl_append (buf ++ a) b, splitNl_append ((splitNl (buf ++ a)).getLastD []) b,
    hlast]
  simp only [List.dropLast_single, List.nil_append, List.getLastD_cons, List.getLastD_nil]
  simp only [Prod.mk.injEq]
  constructor
  · rw [getLastD_append_of_ne_nil _ _ _ hTne]
  · rw [List.dropLast_append_of_ne_nil _ hTne, List.filterMap_append, List.append_assoc]

theorem foldl_feedChunk_eq_join {α : Type} (parse : List Char → Option α)
    (chunks : List (List Char)) (st : List Char × List α) (h : chunks ≠ []) :
    chunks.foldl (feedChunk parse) st = feedChunk parse st chunks.join := by
  induction chunks generalizing st with
  | nil => exact absurd rfl h
  | cons c cs ih =>
      cases cs with
      | nil => simp
      | cons c₂ cs₂ =>
          rw [List.foldl_cons]
          have hjoin : (c :: c₂ :: cs₂).join = c ++ (c₂ :: cs₂).join := by
            simp [List.join]
          rw [hjoin, feedChunk_append]
          exact ih (feedChunk parse st c) (by simp)

/-- C6: chunking invariance of the frame codec — for every way of cutting
a byte sequence into chunks, feeding the chunks through the codec yields
exactly the decoded event sequence of the unchunked sequence, in the same
order, for every payload parser. -/
theorem codec_chunking_invariance {α : Type} (parse : List Char → Option α)
    (chunks : List (List Char)) :
    decodeChunks parse chunks = decodeChunks parse [chunks.join] := by
  rcases chunks with _ | ⟨c, cs⟩
  · simp [decodeChunks, feedChunk, splitNl]
  · have h := foldl_feedChunk_eq_join parse (c :: cs) ([], []) (by simp)
    simp only [decodeChunks]
    rw [h]
    simp only [List.foldl_cons, List.foldl_nil]

/-! ## History-length invariant of the risk machine (C10) -/

theorem riskStep_preserves_inv (st : RiskState) (op : RiskOp)
    (h1 : st.history ≠ [] → st.history.length = st.reassessCount + 1)
    (h2 : st.mode = .monitoring ∧ st.result.isSome = true →
      st.history ≠ [] ∧ st.history.length = st.reassessCount + 1) :
    ((riskStep st op).history ≠ [] →
      (riskStep st op).history.length = (riskStep st op).reassessCount + 1)
    ∧ ((riskStep st op).mode = .monitoring ∧ (riskStep st op).result.isSome = true →
      (riskStep st op).history ≠ [] ∧
        (riskStep st op).history.length = (riskStep st op).reassessCount + 1) := by
  cases op with
  | assessOk d =>
      by_cases hc : st.mode = .closed
      · simp only [riskStep, if_pos hc]
        exact ⟨h1, h2⟩
      · simp [riskStep, hc]
  | assessFail msg =>
      by_cases hc : st.mode = .closed
      · simp only [riskStep, if_pos hc]
        exact ⟨h1, h2⟩
      · simp [riskStep, hc]
  | reassessOk uf ua d =>
      by_cases hc : st.mode = .monitoring ∧ st.result.isSome = true
      · have hh := h2 hc
        simp only [riskStep, if_pos hc]
        refine ⟨fun _ => ?_, fun _ => ⟨by simp, ?_⟩⟩ <;>
          simp [List.length_append, hh.2]
      · simp only [riskStep, if_neg hc]
        exact ⟨h1, h2⟩
  | reassessFail uf ua => exact ⟨h1, h2⟩
  | endRide =>
      by_cases hc : st.mode = .monitoring
      · simp only [riskStep, if_pos hc]
        refine ⟨h1, ?_⟩
        rintro ⟨hcl, -⟩
        exact absurd hcl (by simp)
      · simp only [riskStep, if_neg hc]
        exact ⟨h1, h2⟩
  | startNew => simp [riskStep, initialRiskState]

theorem foldl_riskStep_inv (ops : List RiskOp) (st : RiskState)
    (h1 : st.history ≠ [] → st.history.length = st.reassessCount + 1)
    (h2 : st.mode = .monitoring ∧ st.result.isSome = true →
      st.history ≠ [] ∧ st.history.length = st.reassessCount + 1) :
    ((ops.foldl riskStep st).history ≠ [] →
      (ops.foldl riskStep st).history.length
        = (ops.foldl riskStep st).reassessCount + 1)
    ∧ ((ops.foldl riskStep st).mode = .monitoring ∧
        (ops.foldl riskStep st).result.isSome = true →
      (ops.foldl riskStep st).history ≠ [] ∧
        (ops.foldl riskStep st).history.length
          = (ops.foldl riskStep st).reassessCount + 1) := by
  induction ops generalizing st with
  | nil => exact ⟨h1, h2⟩
  | cons op ops ih =>
      have h := riskStep_preserves_inv st op h1 h2
      exact ih (riskStep st op) h.1 h.2

/-- C10: in every reachable state of the risk monitoring machine, a
non-empty history has exactly `reassessCount + 1` entries — the relation
is established by a successful assess, preserved by successful and failed
reassessments, and restored by start-new. -/
theorem history_length_invariant (ops : List RiskOp)
    (h : (riskRun ops).history ≠ []) :
    (riskRun ops).history.length = (riskRun ops).reassessCount + 1 :=
  (foldl_riskStep_inv ops initialRiskState
    (by intro hcontra; exact absurd rfl hcontra)
    (by rintro ⟨hcontra, -⟩; exact absurd hcontra (by simp [initialRiskState]))).1 h

/-- Witness for C10 after one successful assessment. -/
theorem history_length_invariant_witness :
    (riskRun [.assessOk ⟨40, "MODERATE"⟩]).history ≠ []
    ∧ (riskRun [.assessOk ⟨40, "MODERATE"⟩]).history.length
        = (riskRun [.assessOk ⟨40, "MODERATE"⟩]).reassessCount + 1 :=
  ⟨by decide, history_length_invariant [.assessOk ⟨40, "MODERATE"⟩] (by decide)⟩

/-! ## Progress derivation (C9) -/

theorem stepIndex_ge_of_seen (types : List String) (j : Nat) (s : AgentStep)
    (hget : AGENT_STEPS.get? j = some s) (hmem : s.key ∈ types) :
    j ≤ stepIndex types := by
  have hj9 : j < 9 := by
    rcases Nat.lt_or_ge j 9 with h9 | h9
    · exact h9
    · rw [List.get?_eq_none.mpr (by simpa [AGENT_STEPS] using h9)] at hget
      cases hget
  interval_cases j
  · omega
  · have hm : "intent_analyzed" ∈ types := by
      have h2 : (some (⟨"intent_analyzed", "Analyzing intent"⟩ : AgentStep)) = some s := hget
      rw [← Option.some.inj h2] at hmem
      exact hmem
    simp only [stepIndex, stepIndexAux, AGENT_STEPS]
    split_ifs <;> omega
  · have hm : "plan_decomposed" ∈ types := by
      have h2 : (some (⟨"plan_decomposed", "Building execution plan"⟩ : AgentStep)) = some s := hget
      rw [← Option.some.inj h2] at hmem
      exact hmem
    simp only [stepIndex, stepIndexAux, AGENT_STEPS]
    split_ifs <;> omega
  · have hm : "thinking" ∈ types := by
      have h2 : (some (⟨"thinking", "Reasoning through the problem"⟩ : AgentStep)) = some s := hget
      rw [← Option.some.inj h2] at hmem
      exact hmem
    simp only [stepIndex, stepIndexAux, AGENT_STEPS]
    split_ifs <;> omega
  · have hm : "acting" ∈ types := by
      have h2 : (some (⟨"acting", "Running specialist tools"⟩ : AgentStep)) = some s := hget
      rw [← Option.some.inj h2] at hmem
      exact hmem
    simp only [stepIndex, stepIndexAux, AGENT_STEPS]
    split_ifs <;> omega
  · have hm : "tool_result" ∈ types := by
      have h2 : (some (⟨"tool_result", "Processing intelligence"⟩ : AgentStep)) = some s := hget
      rw [← Option.some.inj h2] at hmem
      exact hmem
    simp only [stepIndex, stepIndexAux, AGENT_STEPS]
    split_ifs <;> omega
  · have hm : "artifact_ready" ∈ types := by
      have h2 : (some (⟨"artifact_ready", "Generating documents"⟩ : AgentStep)) = some s := hget
      rw [← Option.some.inj h2] at hmem
      exact hmem
    simp only [stepIndex, stepIndexAux, AGENT_STEPS]
    split_ifs <;> omega
  · have hm : "critic" ∈ types := by
      have h2 : (some (⟨"critic", "Quality checking plan"⟩ : AgentStep)) = some s := hget
      rw [← Option.some.inj h2] at hmem
      exact hmem
    simp only [stepIndex, stepIndexAux, AGENT_STEPS]
    split_ifs <;> omega
  · have hm : "result" ∈ types := by
      have h2 : (some (⟨"result", "Plan ready"⟩ : AgentStep)) = some s := hget
      rw [← Option.some.inj h2] at hmem
      exact hmem
    simp only [stepIndex, stepIndexAux, AGENT_STEPS]
    split_ifs <;> omega

theorem stepIndex_achieved (types : List String)
    (h : ∃ j s, AGENT_STEPS.get? j = some s ∧ s.key ∈ types) :
    ∃ s, AGENT_STEPS.get? (stepIndex types) = some s ∧ s.key ∈ types := by
  by_cases h8 : "result" ∈ types
  · have hv : stepIndex types = 8 := by
      simp [stepIndex, stepIndexAux, AGENT_STEPS, h8]
    exact ⟨⟨"result", "Plan ready"⟩, by rw [hv]; rfl, h8⟩
  by_cases h7 : "critic" ∈ types
  · have hv : stepIndex types = 7 := by
      simp [stepIndex, stepIndexAux, AGENT_STEPS, h8, h7]
    exact ⟨⟨"critic", "Quality checking plan"⟩, by rw [hv]; rfl, h7⟩
  by_cases h6 : "artifact_ready" ∈ types
  · have hv : stepIndex types = 6 := by
      simp [stepIndex, stepIndexAux, AGENT_STEPS, h8, h7, h6]
    exact ⟨⟨"artifact_ready", "Generating documents"⟩, by rw [hv]; rfl, h6⟩
  by_cases h5 : "tool_result" ∈ types
  · have hv : stepIndex types = 5 := by
      simp [stepIndex, stepIndexAux, AGENT_STEPS, h8, h7, h6, h5]
    exact ⟨⟨"tool_result", "Processing intelligence"⟩, by rw [hv]; rfl, h5⟩
  by_cases h4 : "acting" ∈ types
  · have hv : stepIndex types = 4 := by
      simp [stepIndex, stepIndexAux, AGENT_STEPS, h8, h7, h6, h5, h4]
    exact ⟨⟨"acting", "Running specialist tools"⟩, by rw [hv]; rfl, h4⟩
  by_cases h3 : "thinking" ∈ types
  · have hv : stepIndex types = 3 := by
      simp [stepIndex, stepIndexAux, AGENT_STEPS, h8, h7, h6, h5, h4, h3]
    exact ⟨⟨"thinking", "Reasoning through the problem"⟩, by rw [hv]; rfl, h3⟩
  by_cases hp2 : "plan_decomposed" ∈ types
  · have hv : stepIndex types = 2 := by
      simp [stepIndex, stepIndexAux, AGENT_STEPS, h8, h7, h6, h5, h4, h3, hp2]
    exact ⟨⟨"plan_decomposed", "Building execution plan"⟩, by rw [hv]; rfl, hp2⟩
  by_cases hp1 : "intent_analyzed" ∈ types
  · have hv : stepIndex types = 1 := by
      simp [stepIndex, stepIndexAux, AGENT_STEPS, h8, h7, h6, h5, h4, h3, hp2, hp1]
    exact ⟨⟨"intent_analyzed", "Analyzing intent"⟩, by rw [hv]; rfl, hp1⟩
  by_cases hp0 : "session" ∈ types
  · have hv : stepIndex types = 0 := by
      simp [stepIndex, stepIndexAux, AGENT_STEPS, h8, h7, h6, h5, h4, h3, hp2, hp1]
    exact ⟨⟨"session", "Initialising session"⟩, by rw [hv]; rfl, hp0⟩
  · exfalso
    obtain ⟨j, s, hget, hmem⟩ := h
    have hs : s ∈ AGENT_STEPS := List.get?_mem hget
    simp only [AGENT_STEPS, List.mem_cons, List.not_mem_nil, or_false] at hs
    rcases hs with rfl | rfl | rfl | rfl | rfl | rfl | rfl | rfl | rfl
    · exact hp0 hmem
    · exact hp1 hmem
    · exact hp2 hmem
    · exact h3 hmem
    · exact h4 hmem
    · exact h5 hmem
    · exact h6 hmem
    · exact h7 hmem
    · exact h8 hmem

/-- C9: as long as some canonical phase type has been observed, the
reported step index is the largest index in `AGENT_STEPS` whose key occurs
among the logged events' types; the percentage is the rounding of that
index over the sequence length minus one (times 100); and whenever the
plan is set (`planReady`, wired as the double negation of `plan` by every
caller) the progress is reported complete regardless of the phases seen. -/
theorem progress_derivation (events : List AgentEvent)
    (h : ∃ j s, AGENT_STEPS.get? j = some s ∧ s.key ∈ events.map eventType) :
    progressReport events true = .complete
    ∧ progressReport events false
        = .running (stepIndex (events.map eventType)) (progressPct events)
    ∧ (∃ s, AGENT_STEPS.get? (stepIndex (events.map eventType)) = some s
          ∧ s.key ∈ events.map eventType)
    ∧ (∀ j s, AGENT_STEPS.get? j = some s → s.key ∈ events.map eventType →
          j ≤ stepIndex (events.map eventType))
    ∧ progressPct events
        = round (((stepIndex (events.map eventType) : ℚ) /
            ((AGENT_STEPS.length : ℚ) - 1)) * 100) :=
  ⟨rfl, rfl, stepIndex_achieved _ h,
    fun j s hget hmem => stepIndex_ge_of_seen _ j s hget hmem, rfl⟩

/-- Witness for C9 on the log of a single `thinking` event. -/
theorem progress_derivation_witness :
    (∃ j s, AGENT_STEPS.get? j = some s
        ∧ s.key ∈ [AgentEvent.thinking "x"].map eventType)
    ∧ progressReport [AgentEvent.thinking "x"] true = .complete
    ∧ (∃ s, AGENT_STEPS.get?
          (stepIndex ([AgentEvent.thinking "x"].map eventType)) = some s
        ∧ s.key ∈ [AgentEvent.thinking "x"].map eventType) := by
  have hh : ∃ j s, AGENT_STEPS.get? j = some s
      ∧ s.key ∈ [AgentEvent.thinking "x"].map eventType :=
    ⟨3, ⟨"thinking", "Reasoning through the problem"⟩, rfl, by simp [eventType]⟩
  have h := progress_derivation [AgentEvent.thinking "x"] hh
  exact ⟨hh, h.1, h.2.2.1⟩

end SheOracle

